import Mathlib

/-!
Shallow embedding of `src/backend/memory_store.py` (class `MemoryStore`).

Modelling decisions:

* Python `dict`s are modelled as association lists (`List (α × β)`) with
  first-occurrence lookup; `dict.__setitem__` replaces the first occurrence in
  place or appends at the end (Python dicts preserve insertion order),
  `dict.pop(k, None)` removes the first occurrence, `dict.setdefault` appends
  at the end when the key is absent.
* `collections.deque` is modelled as `List`.
* `NotFoundError(msg)` is modelled as `Except.error msg` over `Except String`.
* All operations run under `self._lock`, so each public method is an atomic
  state transformer; the embedding gives each method as a pure function on the
  store state.  Methods whose only mutation happens after all checks return
  `Except String MemoryStore` (an error leaves the state unchanged, exactly as
  in the source).  `delete_thread` mutates *before* its check, so it returns
  the post-state together with the optional error.
* `_clone` (pydantic `model_copy(deep=True)` / `deepcopy`) is the identity on
  the pure values stored here; the aliasing content of cloning is modelled
  separately by an explicit heap (`HeapStore` below).
-/

namespace MemoryStoreModel

/-- Thread item (`chatkit.types.ThreadItem`): an id plus an opaque payload. -/
structure ThreadItem where
  id : String
  payload : String
deriving DecidableEq, Repr

/-- Thread metadata (`chatkit.types.ThreadMetadata`): id, creation time, payload. -/
structure ThreadMetadata where
  id : String
  created_at : Nat
  payload : String
deriving DecidableEq, Repr

/-- Attachment (`chatkit.types.Attachment`). -/
structure Attachment where
  id : String
  payload : String
deriving DecidableEq, Repr

/-- Page type (`chatkit.types.Page`): the page constructed by the paginating reads. -/
structure Page (α : Type) where
  data : List α
  has_more : Bool
  after : Option String
deriving DecidableEq, Repr

/-- Clone helper `_clone`: `model_copy(deep=True)` is the identity at the value level. -/
def _clone {α : Type} (x : α) : α := x

/-! ### Python dict operations on association lists -/

/-- Python `d.get(k)` / `d[k]`: first-occurrence lookup. -/
def dictGet {α β : Type} [DecidableEq α] : List (α × β) → α → Option β
  | [], _ => none
  | (k, v) :: t, key => if k = key then some v else dictGet t key

/-- Python `d[k] = v`: replace the first occurrence in place, else append. -/
def dictSet {α β : Type} [DecidableEq α] : List (α × β) → α → β → List (α × β)
  | [], key, val => [(key, val)]
  | (k, v) :: t, key, val =>
    if k = key then (key, val) :: t else (k, v) :: dictSet t key val

/-- Python `d.pop(k, None)`: the removed value (if any) and the remaining dict. -/
def dictPop {α β : Type} [DecidableEq α] : List (α × β) → α → Option β × List (α × β)
  | [], _ => (none, [])
  | (k, v) :: t, key =>
    if k = key then (some v, t)
    else
      let r := dictPop t key
      (r.1, (k, v) :: r.2)

/-- Python `d.setdefault(k, dflt)`: insert at the end when absent. -/
def dictSetdefault {α β : Type} [DecidableEq α] (d : List (α × β)) (key : α) (dflt : β) :
    List (α × β) :=
  match dictGet d key with
  | some _ => d
  | none => d ++ [(key, dflt)]

/-- Well-formed dict: keys pairwise distinct (always true of a Python dict). -/
def dictWF {α β : Type} (d : List (α × β)) : Prop := (d.map Prod.fst).Nodup

/-! ### The store state -/

/-- The mutable state of `MemoryStore` (`__init__`). -/
structure MemoryStore where
  threads : List (String × ThreadMetadata)
  items : List (String × List ThreadItem)
  attachments : List (String × Attachment)
deriving DecidableEq, Repr

/-- The freshly constructed store: all three dicts empty. -/
def emptyStore : MemoryStore := ⟨[], [], []⟩

/-! ### Shared pagination core

Both `load_thread_items` and `load_threads` share this shape (source lines
52–75 and 109–129): resolve the cursor by linear scan, slice by `limit`,
compute `has_more` and `next_after`. -/

/-- The linear cursor scan (`for idx, item in enumerate(ordered): if item.id == after`):
index of the first element whose id equals `a`. -/
def scanIdx {α : Type} (getId : α → String) (a : String) : List α → Option Nat
  | [] => none
  | x :: xs => if getId x = a then some 0 else (scanIdx getId a xs).map (· + 1)

/-- Slice, `has_more` and `next_after` computation given the resolved start
index (source lines 67–75). -/
def finishPage {α : Type} (getId : α → String) (l : List α) (start limit : Nat) : Page α :=
  let subset := if limit ≠ 0 then (l.drop start).take limit else l.drop start
  let hasMore := decide (start + subset.length < l.length)
  { data := subset.map _clone
    has_more := hasMore
    after := if hasMore then (subset.getLast?).map getId else none }

/-- Cursor resolution plus page construction.  `if after:` is Python
truthiness: `None` and the empty string both mean "no cursor". -/
def paginateCore {α : Type} (getId : α → String) (mkErr : String → String)
    (l : List α) (after : Option String) (limit : Nat) : Except String (Page α) :=
  match after with
  | none => .ok (finishPage getId l 0 limit)
  | some a =>
    if a = "" then .ok (finishPage getId l 0 limit)
    else
      match scanIdx getId a l with
      | some i => .ok (finishPage getId l (i + 1) limit)
      | none => .error (mkErr a)

/-! ### The public operations -/

/-- Method `load_thread` (source lines 23–30). -/
def loadThread (s : MemoryStore) (thread_id : String) : Except String ThreadMetadata :=
  match dictGet s.threads thread_id with
  | none => .error ("Thread " ++ thread_id ++ " not found")
  | some t => .ok (_clone t)

/-- Method `save_thread` (source lines 32–37): store a clone, ensure an item deque. -/
def saveThread (s : MemoryStore) (t : ThreadMetadata) : MemoryStore :=
  { s with
    threads := dictSet s.threads t.id (_clone t)
    items := dictSetdefault s.items t.id [] }

/-- Method `load_thread_items` (source lines 39–75).  Existence is checked against
`self._items`; `order == "asc"` lists append order, anything else reverses. -/
def loadThreadItems (s : MemoryStore) (thread_id : String) (after : Option String)
    (limit : Nat) (order : String) : Except String (Page ThreadItem) :=
  match dictGet s.items thread_id with
  | none => .error ("Thread " ++ thread_id ++ " not found")
  | some its =>
    let ordered := if order = "asc" then its else its.reverse
    paginateCore ThreadItem.id
      (fun a => "Item " ++ a ++ " not found in thread " ++ thread_id)
      ordered after limit

/-- Method `save_attachment` (source lines 77–81). -/
def saveAttachment (s : MemoryStore) (a : Attachment) : MemoryStore :=
  { s with attachments := dictSet s.attachments a.id (_clone a) }

/-- Method `load_attachment` (source lines 83–90). -/
def loadAttachment (s : MemoryStore) (attachment_id : String) : Except String Attachment :=
  match dictGet s.attachments attachment_id with
  | none => .error ("Attachment " ++ attachment_id ++ " not found")
  | some a => .ok (_clone a)

/-- Method `delete_attachment` (source lines 92–99): membership check before delete. -/
def deleteAttachment (s : MemoryStore) (attachment_id : String) : Except String MemoryStore :=
  match dictGet s.attachments attachment_id with
  | some _ => .ok { s with attachments := (dictPop s.attachments attachment_id).2 }
  | none => .error ("Attachment " ++ attachment_id ++ " not found")

/-- The sorted thread listing of `load_threads` (source lines 109–110):
`list.sort` is stable; `reverse=(order != "asc")` flips the comparison. -/
def sortedThreads (s : MemoryStore) (order : String) : List ThreadMetadata :=
  (s.threads.map Prod.snd).mergeSort (fun a b =>
    if order = "asc" then decide (a.created_at ≤ b.created_at)
    else decide (b.created_at ≤ a.created_at))

/-- Method `load_threads` (source lines 101–129). -/
def loadThreads (s : MemoryStore) (limit : Nat) (after : Option String)
    (order : String) : Except String (Page ThreadMetadata) :=
  paginateCore ThreadMetadata.id (fun a => "Thread " ++ a ++ " not found")
    (sortedThreads s order) after limit

/-- Method `add_thread_item` (source lines 131–139): existence checked against
`self._threads`; `setdefault` then append, no id-collision check. -/
def addThreadItem (s : MemoryStore) (thread_id : String) (item : ThreadItem) :
    Except String MemoryStore :=
  match dictGet s.threads thread_id with
  | none => .error ("Thread " ++ thread_id ++ " not found")
  | some _ =>
    let m := dictSetdefault s.items thread_id []
    .ok { s with items := dictSet m thread_id (((dictGet m thread_id).getD []) ++ [_clone item]) }

/-- The replacement loop of `save_item` (source lines 149–152): replace the
first item whose id matches, `none` when no item matches. -/
def replaceFirst (col : List ThreadItem) (item : ThreadItem) : Option (List ThreadItem) :=
  match col with
  | [] => none
  | x :: xs =>
    if x.id = item.id then some (_clone item :: xs)
    else (replaceFirst xs item).map (x :: ·)

/-- Method `save_item` (source lines 141–154). -/
def saveItem (s : MemoryStore) (thread_id : String) (item : ThreadItem) :
    Except String MemoryStore :=
  match dictGet s.items thread_id with
  | none => .error ("Thread " ++ thread_id ++ " not found")
  | some col =>
    match replaceFirst col item with
    | some col' => .ok { s with items := dictSet s.items thread_id col' }
    | none => .error ("Item " ++ item.id ++ " not found in thread " ++ thread_id)

/-- The lookup loop of `load_item` (source lines 164–166). -/
def findFirst (col : List ThreadItem) (item_id : String) : Option ThreadItem :=
  match col with
  | [] => none
  | x :: xs => if x.id = item_id then some x else findFirst xs item_id

/-- Method `load_item` (source lines 156–168). -/
def loadItem (s : MemoryStore) (thread_id : String) (item_id : String) :
    Except String ThreadItem :=
  match dictGet s.items thread_id with
  | none => .error ("Thread " ++ thread_id ++ " not found")
  | some col =>
    match findFirst col item_id with
    | some it => .ok (_clone it)
    | none => .error ("Item " ++ item_id ++ " not found in thread " ++ thread_id)

/-- Method `delete_thread` (source lines 170–178).  Both pops happen *before* the
check, so the state is mutated even when the operation raises; the result is
the post-state together with the optional error. -/
def deleteThread (s : MemoryStore) (thread_id : String) : MemoryStore × Option String :=
  let tr := dictPop s.threads thread_id
  let ir := dictPop s.items thread_id
  ({ s with threads := tr.2, items := ir.2 },
   if tr.1 = none ∨ ir.1 = none then some ("Thread " ++ thread_id ++ " not found") else none)

/-- The deletion loop of `delete_thread_item` (source lines 188–191): remove
the first item whose id matches, `none` when no item matches. -/
def removeFirst (col : List ThreadItem) (item_id : String) : Option (List ThreadItem) :=
  match col with
  | [] => none
  | x :: xs =>
    if x.id = item_id then some xs
    else (removeFirst xs item_id).map (x :: ·)

/-- Method `delete_thread_item` (source lines 180–193). -/
def deleteThreadItem (s : MemoryStore) (thread_id : String) (item_id : String) :
    Except String MemoryStore :=
  match dictGet s.items thread_id with
  | none => .error ("Thread " ++ thread_id ++ " not found")
  | some col =>
    match removeFirst col item_id with
    | some col' => .ok { s with items := dictSet s.items thread_id col' }
    | none => .error ("Item " ++ item_id ++ " not found in thread " ++ thread_id)

/-! ### Derived drivers and the operation alphabet -/

/-- The pagination-consuming loop of the spec's round-trip property: call
`load_thread_items`, and while `has_more` keep calling with `after` set to the
returned `next_after`, concatenating the page data.  Fuel bounds the number of
calls; `none` means an error or fuel exhaustion (a non-terminating iteration). -/
def paginateItems (s : MemoryStore) (tid : String) (limit : Nat) (order : String) :
    Nat → Option String → Option (List ThreadItem)
  | 0, _ => none
  | fuel + 1, after =>
    match loadThreadItems s tid after limit order with
    | .error _ => none
    | .ok p =>
      if p.has_more then (paginateItems s tid limit order fuel p.after).map (p.data ++ ·)
      else some p.data

/-- Sequentially append a list of items via `add_thread_item`. -/
def addAll (s : MemoryStore) (tid : String) : List ThreadItem → Except String MemoryStore
  | [] => .ok s
  | it :: rest =>
    match addThreadItem s tid it with
    | .error e => .error e
    | .ok s' => addAll s' tid rest

/-- One public `Store` operation together with its arguments. -/
inductive Op where
  | opLoadThread (tid : String)
  | opSaveThread (t : ThreadMetadata)
  | opLoadThreadItems (tid : String) (after : Option String) (limit : Nat) (order : String)
  | opSaveAttachment (a : Attachment)
  | opLoadAttachment (aid : String)
  | opDeleteAttachment (aid : String)
  | opLoadThreads (limit : Nat) (after : Option String) (order : String)
  | opAddThreadItem (tid : String) (item : ThreadItem)
  | opSaveItem (tid : String) (item : ThreadItem)
  | opLoadItem (tid : String) (iid : String)
  | opDeleteThread (tid : String)
  | opDeleteThreadItem (tid : String) (iid : String)

/-- The state reached after one public operation (reads leave the state as it
is; a raising operation leaves whatever state the method produced before the
raise — for every method except `delete_thread` that is the unchanged state). -/
def stepOp (s : MemoryStore) : Op → MemoryStore
  | .opLoadThread _ => s
  | .opSaveThread t => saveThread s t
  | .opLoadThreadItems _ _ _ _ => s
  | .opSaveAttachment a => saveAttachment s a
  | .opLoadAttachment _ => s
  | .opDeleteAttachment aid =>
    match deleteAttachment s aid with
    | .ok s' => s'
    | .error _ => s
  | .opLoadThreads _ _ _ => s
  | .opAddThreadItem tid it =>
    match addThreadItem s tid it with
    | .ok s' => s'
    | .error _ => s
  | .opSaveItem tid it =>
    match saveItem s tid it with
    | .ok s' => s'
    | .error _ => s
  | .opLoadItem _ _ => s
  | .opDeleteThread tid => (deleteThread s tid).1
  | .opDeleteThreadItem tid iid =>
    match deleteThreadItem s tid iid with
    | .ok s' => s'
    | .error _ => s

/-- The state reached from the freshly constructed store by a sequence of
public operations. -/
def runOps (ops : List Op) : MemoryStore := ops.foldl stepOp emptyStore

/-! ### Heap model of `_clone` for the aliasing claim

`_clone` is `model_copy(deep=True)`: the store keeps its own copy of every
object and hands out fresh copies.  To state aliasing, values are placed in an
explicit heap of numbered cells; cloning allocates a fresh cell holding the
same value, and mutation overwrites one cell.  `save_thread`/`load_thread` are
re-expressed over the heap exactly as in the source (store a clone; look up,
clone, return). -/

structure HeapStore where
  heap : List (Nat × ThreadMetadata)
  next : Nat
  threadRefs : List (String × Nat)
deriving DecidableEq, Repr

/-- Allocate a fresh cell holding `v` (the effect of `model_copy(deep=True)`). -/
def allocH (h : HeapStore) (v : ThreadMetadata) : Nat × HeapStore :=
  (h.next, { heap := dictSet h.heap h.next v, next := h.next + 1, threadRefs := h.threadRefs })

/-- Method `save_thread` over the heap: read the caller's object at `p`, store a
fresh clone of it under its id (`self._threads[thread.id] = _clone(thread)`). -/
def saveThreadH (h : HeapStore) (p : Nat) : Option HeapStore :=
  match dictGet h.heap p with
  | none => none
  | some v =>
    let r := allocH h v
    some { r.2 with threadRefs := dictSet r.2.threadRefs v.id r.1 }

/-- Method `load_thread` over the heap: look up the stored cell and return a fresh
clone of it (`return _clone(thread)`). -/
def loadThreadH (h : HeapStore) (tid : String) : Except String (Nat × HeapStore) :=
  match dictGet h.threadRefs tid with
  | none => .error ("Thread " ++ tid ++ " not found")
  | some r =>
    match dictGet h.heap r with
    | none => .error ("Thread " ++ tid ++ " not found")
    | some v => .ok (allocH h v)

/-- A caller mutating the object it holds at address `p`. -/
def mutateH (h : HeapStore) (p : Nat) (v : ThreadMetadata) : HeapStore :=
  { h with heap := dictSet h.heap p v }

/-- Heap well-formedness: every allocated address is below the bump pointer. -/
def wfH (h : HeapStore) : Prop := ∀ p v, (p, v) ∈ h.heap → p < h.next

/-- Reachable-state invariant (C10): both dicts are well formed and the thread
map and the per-thread item map have the same key set. -/
def StoreInv (s : MemoryStore) : Prop :=
  dictWF s.threads ∧ dictWF s.items ∧
    ∀ k, (dictGet s.threads k).isSome ↔ (dictGet s.items k).isSome

/-! ### Dictionary lemmas -/

theorem dictGet_dictSet_self {α β : Type} [DecidableEq α] (d : List (α × β)) (k : α) (v : β) :
    dictGet (dictSet d k v) k = some v := by
  induction d with
  | nil => simp [dictGet, dictSet]
  | cons hd t ih =>
    obtain ⟨k1, v1⟩ := hd
    by_cases h : k1 = k <;> simp [dictGet, dictSet, h, ih]

theorem dictGet_dictSet_ne {α β : Type} [DecidableEq α] (d : List (α × β)) {k k' : α} (v : β)
    (h : k' ≠ k) : dictGet (dictSet d k v) k' = dictGet d k' := by
  have hne : ¬ (k = k') := fun e => h e.symm
  induction d with
  | nil => simp [dictGet, dictSet, hne]
  | cons hd t ih =>
    obtain ⟨k1, v1⟩ := hd
    by_cases h1 : k1 = k
    · subst h1
      simp [dictGet, dictSet, hne]
    · simp [dictGet, dictSet, h1, ih]

theorem dictGet_append_some {α β : Type} [DecidableEq α] (d1 d2 : List (α × β)) (k : α) (v : β)
    (h : dictGet d1 k = some v) : dictGet (d1 ++ d2) k = some v := by
  induction d1 with
  | nil => simp [dictGet] at h
  | cons hd t ih =>
    obtain ⟨k1, v1⟩ := hd
    by_cases h1 : k1 = k
    · simp [dictGet, h1] at h ⊢
      exact h
    · simp [dictGet, h1] at h ⊢
      exact ih h

theorem dictGet_append_none {α β : Type} [DecidableEq α] (d1 d2 : List (α × β)) (k : α)
    (h : dictGet d1 k = none) : dictGet (d1 ++ d2) k = dictGet d2 k := by
  induction d1 with
  | nil => simp
  | cons hd t ih =>
    obtain ⟨k1, v1⟩ := hd
    by_cases h1 : k1 = k
    · simp [dictGet, h1] at h
    · simp [dictGet, h1] at h ⊢
      exact ih h

theorem dictGet_setdefault_self {α β : Type} [DecidableEq α] (d : List (α × β)) (k : α) (v : β) :
    dictGet (dictSetdefault d k v) k = some ((dictGet d k).getD v) := by
  unfold dictSetdefault
  cases hg : dictGet d k with
  | some w => simp [hg]
  | none =>
    rw [dictGet_append_none d [(k, v)] k hg]
    simp [dictGet]

theorem dictGet_setdefault_ne {α β : Type} [DecidableEq α] (d : List (α × β)) {k k' : α} (v : β)
    (h : k' ≠ k) : dictGet (dictSetdefault d k v) k' = dictGet d k' := by
  have hne : ¬ (k = k') := fun e => h e.symm
  unfold dictSetdefault
  cases hg : dictGet d k with
  | some w => rfl
  | none =>
    cases hg' : dictGet d k' with
    | some w => exact dictGet_append_some d [(k, v)] k' w hg'
    | none =>
      rw [dictGet_append_none d [(k, v)] k' hg']
      simp [dictGet, hne]

theorem dictPop_fst {α β : Type} [DecidableEq α] (d : List (α × β)) (k : α) :
    (dictPop d k).1 = dictGet d k := by
  induction d with
  | nil => rfl
  | cons hd t ih =>
    obtain ⟨k1, v1⟩ := hd
    by_cases h : k1 = k <;> simp [dictGet, dictPop, h, ih]

theorem dictPop_none {α β : Type} [DecidableEq α] (d : List (α × β)) (k : α)
    (h : dictGet d k = none) : (dictPop d k).2 = d := by
  induction d with
  | nil => rfl
  | cons hd t ih =>
    obtain ⟨k1, v1⟩ := hd
    by_cases h1 : k1 = k
    · simp [dictGet, h1] at h
    · simp [dictGet, h1] at h
      simp [dictPop, h1, ih h]

theorem dictGet_pop_ne {α β : Type} [DecidableEq α] (d : List (α × β)) {k k' : α}
    (h : k' ≠ k) : dictGet ((dictPop d k).2) k' = dictGet d k' := by
  have hne : ¬ (k = k') := fun e => h e.symm
  induction d with
  | nil => rfl
  | cons hd t ih =>
    obtain ⟨k1, v1⟩ := hd
    by_cases h1 : k1 = k
    · subst h1
      simp [dictGet, dictPop, hne]
    · simp [dictGet, dictPop, h1, ih]

theorem dictGet_eq_none_iff {α β : Type} [DecidableEq α] (d : List (α × β)) (k : α) :
    dictGet d k = none ↔ k ∉ d.map Prod.fst := by
  induction d with
  | nil => simp [dictGet]
  | cons hd t ih =>
    obtain ⟨k1, v1⟩ := hd
    by_cases h1 : k1 = k
    · subst h1
      simp only [dictGet, if_pos rfl, List.map_cons, List.mem_cons]
      simp
    · have h2 : ¬ (k = k1) := fun e => h1 e.symm
      simp only [dictGet, if_neg h1, List.map_cons, List.mem_cons]
      rw [ih]
      simp [h2]

theorem dictSet_keys {α β : Type} [DecidableEq α] (d : List (α × β)) (k : α) (v : β) :
    (dictSet d k v).map Prod.fst =
      if k ∈ d.map Prod.fst then d.map Prod.fst else d.map Prod.fst ++ [k] := by
  induction d with
  | nil => simp [dictSet]
  | cons hd t ih =>
    obtain ⟨k1, v1⟩ := hd
    by_cases h1 : k1 = k
    · subst h1
      simp [dictSet]
    · have h2 : ¬ (k = k1) := fun e => h1 e.symm
      simp only [dictSet, if_neg h1, List.map_cons, ih, List.mem_cons]
      by_cases h3 : k ∈ t.map Prod.fst <;> simp [h2, h3]

theorem dictPop_keys_subset {α β : Type} [DecidableEq α] (d : List (α × β)) (k x : α)
    (h : x ∈ ((dictPop d k).2).map Prod.fst) : x ∈ d.map Prod.fst := by
  induction d with
  | nil =>
    simp [dictPop] at h
  | cons hd t ih =>
    obtain ⟨k1, v1⟩ := hd
    by_cases h1 : k1 = k
    · simp only [dictPop, if_pos h1] at h
      exact List.mem_cons_of_mem _ h
    · simp only [dictPop, if_neg h1, List.map_cons, List.mem_cons] at h
      rcases h with h | h
      · simp only [List.map_cons, List.mem_cons]
        exact Or.inl h
      · simp only [List.map_cons, List.mem_cons]
        exact Or.inr (ih h)

theorem dictGet_pop_self {α β : Type} [DecidableEq α] (d : List (α × β)) (k : α)
    (hwf : dictWF d) : dictGet ((dictPop d k).2) k = none := by
  induction d with
  | nil => rfl
  | cons hd t ih =>
    obtain ⟨k1, v1⟩ := hd
    simp only [dictWF, List.map_cons, List.nodup_cons] at hwf
    by_cases h1 : k1 = k
    · subst h1
      simp only [dictPop, if_pos rfl]
      exact (dictGet_eq_none_iff t k1).mpr hwf.1
    · simp only [dictPop, if_neg h1, dictGet, if_neg h1]
      exact ih hwf.2

theorem dictWF_dictSet {α β : Type} [DecidableEq α] (d : List (α × β)) (k : α) (v : β)
    (hwf : dictWF d) : dictWF (dictSet d k v) := by
  unfold dictWF at hwf ⊢
  rw [dictSet_keys]
  by_cases h3 : k ∈ d.map Prod.fst
  · rw [if_pos h3]
    exact hwf
  · rw [if_neg h3]
    exact hwf.append (List.nodup_singleton k)
      (fun a ha hk2 => h3 ((List.mem_singleton.mp hk2) ▸ ha))

theorem dictWF_setdefault {α β : Type} [DecidableEq α] (d : List (α × β)) (k : α) (v : β)
    (hwf : dictWF d) : dictWF (dictSetdefault d k v) := by
  unfold dictSetdefault
  cases hg : dictGet d k with
  | some w => exact hwf
  | none =>
    have hk : k ∉ d.map Prod.fst := (dictGet_eq_none_iff d k).mp hg
    unfold dictWF at hwf ⊢
    rw [List.map_append]
    refine hwf.append ?_ ?_
    · simp
    · intro a ha hk2
      simp only [List.map_cons, List.map_nil, List.mem_singleton] at hk2
      exact hk (hk2 ▸ ha)

theorem dictWF_pop {α β : Type} [DecidableEq α] (d : List (α × β)) (k : α)
    (hwf : dictWF d) : dictWF ((dictPop d k).2) := by
  induction d with
  | nil => exact hwf
  | cons hd t ih =>
    obtain ⟨k1, v1⟩ := hd
    simp only [dictWF, List.map_cons, List.nodup_cons] at hwf
    by_cases h1 : k1 = k
    · simp only [dictPop, if_pos h1]
      exact hwf.2
    · simp only [dictPop, if_neg h1, dictWF, List.map_cons, List.nodup_cons]
      exact ⟨fun hx => hwf.1 (dictPop_keys_subset t k k1 hx), ih hwf.2⟩

/-! ### Lemmas about the linear item loops -/

theorem replaceFirst_eq_none (col : List ThreadItem) (item : ThreadItem)
    (h : item.id ∉ col.map ThreadItem.id) : replaceFirst col item = none := by
  induction col with
  | nil => rfl
  | cons x xs ih =>
    simp only [List.map_cons, List.mem_cons] at h
    push_neg at h
    have hx : ¬ (x.id = item.id) := fun e => h.1 e.symm
    simp [replaceFirst, hx, ih h.2]

theorem replaceFirst_first_match (pre : List ThreadItem) (x : ThreadItem)
    (suf : List ThreadItem) (item : ThreadItem)
    (hpre : item.id ∉ pre.map ThreadItem.id) (hx : x.id = item.id) :
    replaceFirst (pre ++ x :: suf) item = some (pre ++ item :: suf) := by
  induction pre with
  | nil => simp [replaceFirst, hx, _clone]
  | cons y ys ih =>
    simp only [List.map_cons, List.mem_cons] at hpre
    push_neg at hpre
    have hy : ¬ (y.id = item.id) := fun e => hpre.1 e.symm
    simp [replaceFirst, hy, ih hpre.2]

theorem removeFirst_eq_none (col : List ThreadItem) (iid : String)
    (h : iid ∉ col.map ThreadItem.id) : removeFirst col iid = none := by
  induction col with
  | nil => rfl
  | cons x xs ih =>
    simp only [List.map_cons, List.mem_cons] at h
    push_neg at h
    have hx : ¬ (x.id = iid) := fun e => h.1 e.symm
    simp [removeFirst, hx, ih h.2]

theorem removeFirst_first_match (pre : List ThreadItem) (x : ThreadItem)
    (suf : List ThreadItem) (iid : String)
    (hpre : iid ∉ pre.map ThreadItem.id) (hx : x.id = iid) :
    removeFirst (pre ++ x :: suf) iid = some (pre ++ suf) := by
  induction pre with
  | nil => simp [removeFirst, hx]
  | cons y ys ih =>
    simp only [List.map_cons, List.mem_cons] at hpre
    push_neg at hpre
    have hy : ¬ (y.id = iid) := fun e => hpre.1 e.symm
    simp [removeFirst, hy, ih hpre.2]

theorem scanIdx_eq_none {α : Type} (getId : α → String) (a : String) (l : List α)
    (h : a ∉ l.map getId) : scanIdx getId a l = none := by
  induction l with
  | nil => rfl
  | cons x xs ih =>
    simp only [List.map_cons, List.mem_cons] at h
    push_neg at h
    have hx : ¬ (getId x = a) := fun e => h.1 e.symm
    simp [scanIdx, hx, ih h.2]

theorem scanIdx_first_match {α : Type} (getId : α → String) (pre : List α) (x : α)
    (suf : List α) (a : String) (hpre : a ∉ pre.map getId) (hx : getId x = a) :
    scanIdx getId a (pre ++ x :: suf) = some pre.length := by
  induction pre with
  | nil => simp [scanIdx, hx]
  | cons y ys ih =>
    simp only [List.map_cons, List.mem_cons] at hpre
    push_neg at hpre
    have hy : ¬ (getId y = a) := fun e => hpre.1 e.symm
    simp [scanIdx, hy, ih hpre.2]

theorem scanIdx_lt_length {α : Type} (getId : α → String) (a : String) (l : List α)
    (i : Nat) (h : scanIdx getId a l = some i) : i < l.length := by
  induction l generalizing i with
  | nil => simp [scanIdx] at h
  | cons x xs ih =>
    simp only [List.length_cons]
    by_cases hx : getId x = a
    · simp [scanIdx, hx] at h
      omega
    · simp [scanIdx, hx] at h
      obtain ⟨j, hj, rfl⟩ := h
      have := ih j hj
      omega

/-! ### C7: `save_item` -/

/-- C7: `save_item(thread_id, item)` replaces the first existing item whose id
equals `item.id` in place, preserving its position and leaving all other items
unchanged; it fails with NotFound when the thread is unknown or no item with
that id exists, and in that case it does not insert a new item. -/
theorem c7_save_item_replaces_first_in_place (s : MemoryStore) (tid : String)
    (item : ThreadItem) :
    (dictGet s.items tid = none →
      saveItem s tid item = .error ("Thread " ++ tid ++ " not found"))
    ∧ (∀ col, dictGet s.items tid = some col →
        item.id ∉ col.map ThreadItem.id →
        saveItem s tid item = .error ("Item " ++ item.id ++ " not found in thread " ++ tid))
    ∧ (∀ col pre x suf, dictGet s.items tid = some col →
        col = pre ++ x :: suf → item.id ∉ pre.map ThreadItem.id → x.id = item.id →
        saveItem s tid item =
          .ok { s with items := dictSet s.items tid (pre ++ item :: suf) }) := by
  refine ⟨?_, ?_, ?_⟩
  · intro h
    simp [saveItem, h]
  · intro col hcol hnot
    simp [saveItem, hcol, replaceFirst_eq_none col item hnot]
  · intro col pre x suf hcol hdecomp hpre hx
    subst hdecomp
    simp [saveItem, hcol, replaceFirst_first_match pre x suf item hpre hx]

/-- Witness for C7 at a concrete store: replacing the item with id `"b"`
in a two-item thread rewrites it in place. -/
theorem c7_witness :
    saveItem ⟨[("t", ⟨"t", 0, "m"⟩)], [("t", [⟨"a", "1"⟩, ⟨"b", "2"⟩])], []⟩ "t" ⟨"b", "9"⟩ =
      .ok ⟨[("t", ⟨"t", 0, "m"⟩)], [("t", [⟨"a", "1"⟩, ⟨"b", "9"⟩])], []⟩ := by
  have h := c7_save_item_replaces_first_in_place
    ⟨[("t", ⟨"t", 0, "m"⟩)], [("t", [⟨"a", "1"⟩, ⟨"b", "2"⟩])], []⟩ "t" ⟨"b", "9"⟩
  have h2 := h.2.2 [⟨"a", "1"⟩, ⟨"b", "2"⟩] [⟨"a", "1"⟩] ⟨"b", "2"⟩ [] rfl rfl (by decide) rfl
  simpa [dictSet] using h2

/-! ### C8: `delete_thread_item` -/

/-- C8: `delete_thread_item(thread_id, item_id)` removes exactly the first item
whose id matches, keeping all remaining items in their original relative order;
it fails with NotFound when the thread is unknown or no item matches, leaving
the sequence unchanged. -/
theorem c8_delete_thread_item_removes_first (s : MemoryStore) (tid iid : String) :
    (dictGet s.items tid = none →
      deleteThreadItem s tid iid = .error ("Thread " ++ tid ++ " not found"))
    ∧ (∀ col, dictGet s.items tid = some col →
        iid ∉ col.map ThreadItem.id →
        deleteThreadItem s tid iid =
          .error ("Item " ++ iid ++ " not found in thread " ++ tid))
    ∧ (∀ col pre x suf, dictGet s.items tid = some col →
        col = pre ++ x :: suf → iid ∉ pre.map ThreadItem.id → x.id = iid →
        deleteThreadItem s tid iid =
          .ok { s with items := dictSet s.items tid (pre ++ suf) }) := by
  refine ⟨?_, ?_, ?_⟩
  · intro h
    simp [deleteThreadItem, h]
  · intro col hcol hnot
    simp [deleteThreadItem, hcol, removeFirst_eq_none col iid hnot]
  · intro col pre x suf hcol hdecomp hpre hx
    subst hdecomp
    simp [deleteThreadItem, hcol, removeFirst_first_match pre x suf iid hpre hx]

/-- Witness for C8 at a concrete store: deleting `"a"` from a thread holding
two items with that id removes only the first one. -/
theorem c8_witness :
    deleteThreadItem
        ⟨[("t", ⟨"t", 0, "m"⟩)], [("t", [⟨"a", "1"⟩, ⟨"b", "2"⟩, ⟨"a", "3"⟩])], []⟩ "t" "a" =
      .ok ⟨[("t", ⟨"t", 0, "m"⟩)], [("t", [⟨"b", "2"⟩, ⟨"a", "3"⟩])], []⟩ := by
  have h := c8_delete_thread_item_removes_first
    ⟨[("t", ⟨"t", 0, "m"⟩)], [("t", [⟨"a", "1"⟩, ⟨"b", "2"⟩, ⟨"a", "3"⟩])], []⟩ "t" "a"
  have h2 := h.2.2 [⟨"a", "1"⟩, ⟨"b", "2"⟩, ⟨"a", "3"⟩] [] ⟨"a", "1"⟩ [⟨"b", "2"⟩, ⟨"a", "3"⟩]
    rfl rfl (by decide) rfl
  simpa [dictSet] using h2

/-! ### C9: `add_thread_item` -/

/-- C9: `add_thread_item` fails with NotFound iff the thread id is not a saved
thread; otherwise it appends the item at the end of the sequence without any
id-collision check, so an item whose id duplicates an existing one is appended
and both occurrences remain. -/
theorem c9_add_thread_item_appends (s : MemoryStore) (tid : String) (item : ThreadItem) :
    ((∃ e, addThreadItem s tid item = .error e) ↔ dictGet s.threads tid = none)
    ∧ (∀ s', addThreadItem s tid item = .ok s' →
        s'.threads = s.threads ∧ s'.attachments = s.attachments ∧
        dictGet s'.items tid = some (((dictGet s.items tid).getD []) ++ [item]))
    ∧ (∀ s' old, addThreadItem s tid item = .ok s' → dictGet s.items tid = some old →
        item.id ∈ old.map ThreadItem.id →
        dictGet s'.items tid = some (old ++ [item]) ∧
        2 ≤ ((old ++ [item]).map ThreadItem.id).count item.id) := by
  refine ⟨?_, ?_, ?_⟩
  · constructor
    · rintro ⟨e, he⟩
      cases hg : dictGet s.threads tid with
      | none => rfl
      | some t => simp [addThreadItem, hg] at he
    · intro hg
      exact ⟨"Thread " ++ tid ++ " not found", by simp [addThreadItem, hg]⟩
  · intro s' hs'
    cases hg : dictGet s.threads tid with
    | none => simp [addThreadItem, hg] at hs'
    | some t =>
      simp only [addThreadItem, hg] at hs'
      cases hs'
      refine ⟨rfl, rfl, ?_⟩
      rw [dictGet_dictSet_self, dictGet_setdefault_self]
      cases dictGet s.items tid <;> rfl
  · intro s' old hs' hold hmem
    cases hg : dictGet s.threads tid with
    | none => simp [addThreadItem, hg] at hs'
    | some t =>
      simp only [addThreadItem, hg] at hs'
      cases hs'
      constructor
      · simp [dictGet_dictSet_self, dictGet_setdefault_self, hold, _clone]
      · rw [List.map_append, List.count_append]
        have h1 : 0 < (old.map ThreadItem.id).count item.id :=
          List.count_pos_iff.mpr hmem
        have h2 : ([item].map ThreadItem.id).count item.id = 1 := by
          simp
        omega

/-- Witness for C9 at a concrete store: appending an item whose id duplicates
an existing one succeeds and both occurrences remain. -/
theorem c9_witness :
    dictGet
      (match addThreadItem ⟨[("t", ⟨"t", 0, "m"⟩)], [("t", [⟨"a", "1"⟩])], []⟩ "t" ⟨"a", "2"⟩ with
        | .ok s' => s'.items
        | .error _ => []) "t" = some [⟨"a", "1"⟩, ⟨"a", "2"⟩] := by
  have h := c9_add_thread_item_appends
    ⟨[("t", ⟨"t", 0, "m"⟩)], [("t", [⟨"a", "1"⟩])], []⟩ "t" ⟨"a", "2"⟩
  have h2 := h.2.2 ⟨[("t", ⟨"t", 0, "m"⟩)], [("t", [⟨"a", "1"⟩, ⟨"a", "2"⟩])], []⟩
    [⟨"a", "1"⟩] rfl rfl (by decide)
  simpa using h2.1

/-! ### Page-construction lemmas -/

theorem map_clone {α : Type} (l : List α) : l.map _clone = l := by
  have h : (_clone : α → α) = id := rfl
  rw [h, List.map_id]

theorem mem_of_dictGet {α β : Type} [DecidableEq α] (d : List (α × β)) (k : α) (v : β)
    (h : dictGet d k = some v) : (k, v) ∈ d := by
  induction d with
  | nil => simp [dictGet] at h
  | cons hd t ih =>
    obtain ⟨k1, v1⟩ := hd
    by_cases h1 : k1 = k
    · simp [dictGet, h1] at h
      simp [h1, h]
    · simp [dictGet, h1] at h
      exact List.mem_cons_of_mem _ (ih h)

/-- Full characterisation of `finishPage`: the page is a contiguous slice of
`l`; `has_more` holds exactly when something lies beyond the slice; `next_after`
is the last id of the page when `has_more` holds and `None` otherwise. -/
theorem finishPage_spec {α : Type} (getId : α → String) (l : List α) (start limit : Nat)
    (hstart : start ≤ l.length) :
    ∃ pre rest, l = pre ++ (finishPage getId l start limit).data ++ rest
      ∧ pre.length = start
      ∧ ((finishPage getId l start limit).has_more = true ↔ rest ≠ [])
      ∧ ((finishPage getId l start limit).has_more = true →
          ∃ x, (finishPage getId l start limit).data.getLast? = some x ∧
            (finishPage getId l start limit).after = some (getId x))
      ∧ ((finishPage getId l start limit).has_more = false →
          (finishPage getId l start limit).after = none) := by
  by_cases hlim : limit = 0
  · subst hlim
    have hpage : finishPage getId l start 0 = ⟨l.drop start, false, none⟩ := by
      simp [finishPage, map_clone]
      omega
    refine ⟨l.take start, [], ?_, ?_, ?_, ?_, ?_⟩
    · rw [hpage]
      simp
    · simp [List.length_take]
      omega
    · rw [hpage]
      simp
    · rw [hpage]
      simp
    · rw [hpage]
      simp
  · have hsplit : ((l.drop start).take limit) ++ ((l.drop start).drop limit) = l.drop start :=
      List.take_append_drop limit (l.drop start)
    have hdlen : (l.drop start).length = l.length - start := List.length_drop start l
    by_cases hmore : start + ((l.drop start).take limit).length < l.length
    · have hlt : limit < (l.drop start).length := by
        have := List.length_take limit (l.drop start)
        omega
      have hslen : ((l.drop start).take limit).length = limit := by
        rw [List.length_take]
        omega
      have hne : (l.drop start).take limit ≠ [] := by
        intro e
        rw [e] at hslen
        simp at hslen
        omega
      obtain ⟨x, hx⟩ : ∃ x, ((l.drop start).take limit).getLast? = some x := by
        cases hgl : ((l.drop start).take limit).getLast? with
        | none => exact absurd (List.getLast?_eq_none_iff.mp hgl) hne
        | some y => exact ⟨y, rfl⟩
      have hpage : finishPage getId l start limit =
          ⟨(l.drop start).take limit, true, some (getId x)⟩ := by
        simp [finishPage, map_clone, hlim, hx]
        omega
      refine ⟨l.take start, (l.drop start).drop limit, ?_, ?_, ?_, ?_, ?_⟩
      · rw [hpage]
        simp only [List.append_assoc, hsplit, List.take_append_drop]
      · simp [List.length_take]
        omega
      · rw [hpage]
        have hdne : (l.drop start).drop limit ≠ [] := by
          intro e
          have := congrArg List.length e
          simp at this
          omega
        simp [hdne]
        omega
      · rw [hpage]
        intro _
        exact ⟨x, hx, rfl⟩
      · rw [hpage]
        intro h
        simp at h
    · have hslen : ((l.drop start).take limit).length = min limit (l.length - start) := by
        rw [List.length_take, hdlen]
      have hrest : (l.drop start).drop limit = [] := by
        have : (l.drop start).length ≤ limit := by
          rw [hdlen]
          omega
        exact List.drop_eq_nil_of_le this
      have hpage : finishPage getId l start limit =
          ⟨(l.drop start).take limit, false, none⟩ := by
        simp [finishPage, map_clone, hlim]
        omega
      refine ⟨l.take start, [], ?_, ?_, ?_, ?_, ?_⟩
      · rw [hpage]
        have htake : (l.drop start).take limit = l.drop start := by
          have h2 := hsplit
          rw [hrest, List.append_nil] at h2
          exact h2
        simp only [htake, List.append_nil, List.take_append_drop]
      · simp [List.length_take]
        omega
      · rw [hpage]
        simp
      · rw [hpage]
        simp
      · rw [hpage]
        simp

theorem paginateCore_not_found {α : Type} (getId : α → String) (mkErr : String → String)
    (l : List α) (a : String) (limit : Nat) (ha : a ≠ "") (h : a ∉ l.map getId) :
    paginateCore getId mkErr l (some a) limit = .error (mkErr a) := by
  simp [paginateCore, ha, scanIdx_eq_none getId a l h]

theorem paginateCore_found {α : Type} (getId : α → String) (mkErr : String → String)
    (pre : List α) (x : α) (suf : List α) (a : String) (limit : Nat)
    (ha : a ≠ "") (hpre : a ∉ pre.map getId) (hx : getId x = a) :
    paginateCore getId mkErr (pre ++ x :: suf) (some a) limit =
      .ok (finishPage getId (pre ++ x :: suf) (pre.length + 1) limit) := by
  simp [paginateCore, ha, scanIdx_first_match getId pre x suf a hpre hx]

theorem drop_after_match {α : Type} (pre : List α) (x : α) (suf : List α) :
    (pre ++ x :: suf).drop (pre.length + 1) = suf := by
  have h1 : pre ++ x :: suf = (pre ++ [x]) ++ suf := by simp
  have h2 : (pre ++ [x]).length = pre.length + 1 := by simp
  rw [h1, ← h2, List.drop_left]

theorem finishPage_data_after_match {α : Type} (getId : α → String)
    (pre : List α) (x : α) (suf : List α) (limit : Nat) :
    (finishPage getId (pre ++ x :: suf) (pre.length + 1) limit).data =
      (if limit ≠ 0 then suf.take limit else suf) := by
  by_cases h : limit = 0 <;>
    simp [finishPage, map_clone, drop_after_match pre x suf, h]

/-! ### C6: `has_more` / `next_after` contract of `load_thread_items` -/

/-- C6: every page returned by `load_thread_items` is a contiguous slice of the
ordered sequence; `has_more` is true iff items remain beyond the slice; when
`has_more` is true `next_after` is the id of the page's last item (in
particular it is not `None`), and when `has_more` is false `next_after` is
`None`. -/
theorem c6_has_more_next_after_contract (s : MemoryStore) (tid : String)
    (after : Option String) (limit : Nat) (order : String) (p : Page ThreadItem)
    (h : loadThreadItems s tid after limit order = .ok p) :
    ∃ its pre rest, dictGet s.items tid = some its ∧
      (if order = "asc" then its else its.reverse) = pre ++ p.data ++ rest ∧
      (p.has_more = true ↔ rest ≠ []) ∧
      (p.has_more = true → ∃ x, p.data.getLast? = some x ∧ p.after = some x.id) ∧
      (p.has_more = false → p.after = none) := by
  cases hit : dictGet s.items tid with
  | none => simp [loadThreadItems, hit] at h
  | some its =>
    simp only [loadThreadItems, hit] at h
    have hpage : ∃ start, start ≤ (if order = "asc" then its else its.reverse).length ∧
        p = finishPage ThreadItem.id (if order = "asc" then its else its.reverse) start limit := by
      cases after with
      | none =>
        simp only [paginateCore] at h
        exact ⟨0, Nat.zero_le _, (Except.ok.inj h).symm⟩
      | some a =>
        by_cases ha : a = ""
        · simp only [paginateCore, if_pos ha] at h
          exact ⟨0, Nat.zero_le _, (Except.ok.inj h).symm⟩
        · simp only [paginateCore, if_neg ha] at h
          cases hscan : scanIdx ThreadItem.id a (if order = "asc" then its else its.reverse) with
          | none =>
            rw [hscan] at h
            simp at h
          | some i =>
            rw [hscan] at h
            have hi := scanIdx_lt_length ThreadItem.id a _ i hscan
            exact ⟨i + 1, by omega, (Except.ok.inj h).symm⟩
    obtain ⟨start, hle, hp⟩ := hpage
    obtain ⟨pre, rest, hdecomp, _, hiff, hsome, hnone⟩ :=
      finishPage_spec ThreadItem.id (if order = "asc" then its else its.reverse) start limit hle
    subst hp
    exact ⟨its, pre, rest, rfl, hdecomp, hiff, hsome, hnone⟩

/-- Witness for C6 at a concrete two-item thread with `limit = 1`. -/
theorem c6_witness :
    ∃ its pre rest,
      dictGet (MemoryStore.mk [("t", ⟨"t", 0, "m"⟩)] [("t", [⟨"a", "1"⟩, ⟨"b", "2"⟩])] []).items
          "t" = some its ∧
      (if "asc" = "asc" then its else its.reverse) =
        pre ++ (Page.mk [(⟨"a", "1"⟩ : ThreadItem)] true (some "a")).data ++ rest ∧
      ((Page.mk [(⟨"a", "1"⟩ : ThreadItem)] true (some "a")).has_more = true ↔ rest ≠ []) ∧
      ((Page.mk [(⟨"a", "1"⟩ : ThreadItem)] true (some "a")).has_more = true →
        ∃ x, (Page.mk [(⟨"a", "1"⟩ : ThreadItem)] true (some "a")).data.getLast? = some x ∧
          (Page.mk [(⟨"a", "1"⟩ : ThreadItem)] true (some "a")).after = some x.id) ∧
      ((Page.mk [(⟨"a", "1"⟩ : ThreadItem)] true (some "a")).has_more = false →
        (Page.mk [(⟨"a", "1"⟩ : ThreadItem)] true (some "a")).after = none) :=
  c6_has_more_next_after_contract
    (MemoryStore.mk [("t", ⟨"t", 0, "m"⟩)] [("t", [⟨"a", "1"⟩, ⟨"b", "2"⟩])] [])
    "t" none 1 "asc" (Page.mk [(⟨"a", "1"⟩ : ThreadItem)] true (some "a")) (by rfl)

/-! ### C5: cursor semantics of `load_thread_items` and `load_threads` -/

/-- C5: a non-empty cursor that matches no id in the ordered candidate
sequence makes `load_thread_items` (resp. `load_threads`) fail with NotFound
rather than return an empty page; a matching cursor starts the page
immediately after the first matched element. -/
theorem c5_cursor_not_found_or_resume (s : MemoryStore) (limit : Nat) (order : String)
    (a : String) (ha : a ≠ "") :
    (∀ tid its, dictGet s.items tid = some its →
      ((a ∉ ((if order = "asc" then its else its.reverse).map ThreadItem.id) →
        loadThreadItems s tid (some a) limit order =
          .error ("Item " ++ a ++ " not found in thread " ++ tid))
      ∧ (∀ pre x suf, (if order = "asc" then its else its.reverse) = pre ++ x :: suf →
          a ∉ pre.map ThreadItem.id → x.id = a →
          ∃ p, loadThreadItems s tid (some a) limit order = .ok p ∧
            p.data = (if limit ≠ 0 then suf.take limit else suf))))
    ∧ ((a ∉ (sortedThreads s order).map ThreadMetadata.id →
        loadThreads s limit (some a) order = .error ("Thread " ++ a ++ " not found"))
      ∧ (∀ pre x suf, sortedThreads s order = pre ++ x :: suf →
          a ∉ pre.map ThreadMetadata.id → x.id = a →
          ∃ p, loadThreads s limit (some a) order = .ok p ∧
            p.data = (if limit ≠ 0 then suf.take limit else suf))) := by
  refine ⟨?_, ?_, ?_⟩
  · intro tid its hit
    constructor
    · intro hnot
      simp only [loadThreadItems, hit]
      exact paginateCore_not_found ThreadItem.id _ _ a limit ha hnot
    · intro pre x suf hdec hpre hx
      simp only [loadThreadItems, hit, hdec]
      rw [paginateCore_found ThreadItem.id _ pre x suf a limit ha hpre hx]
      exact ⟨_, rfl, finishPage_data_after_match ThreadItem.id pre x suf limit⟩
  · intro hnot
    simp only [loadThreads]
    exact paginateCore_not_found ThreadMetadata.id _ _ a limit ha hnot
  · intro pre x suf hdec hpre hx
    simp only [loadThreads, hdec]
    rw [paginateCore_found ThreadMetadata.id _ pre x suf a limit ha hpre hx]
    exact ⟨_, rfl, finishPage_data_after_match ThreadMetadata.id pre x suf limit⟩

/-- Witness for C5 at a concrete store: an unmatched cursor fails with
NotFound on both the item listing and the thread listing. -/
theorem c5_witness :
    loadThreadItems (MemoryStore.mk [("t", ⟨"t", 0, "m"⟩)] [("t", [⟨"a", "1"⟩])] [])
        "t" (some "zzz") 5 "asc" = .error ("Item " ++ "zzz" ++ " not found in thread " ++ "t") ∧
    loadThreads (MemoryStore.mk [("t", ⟨"t", 0, "m"⟩)] [("t", [⟨"a", "1"⟩])] [])
        5 (some "zzz") "asc" = .error ("Thread " ++ "zzz" ++ " not found") := by
  have h := c5_cursor_not_found_or_resume
    (MemoryStore.mk [("t", ⟨"t", 0, "m"⟩)] [("t", [⟨"a", "1"⟩])] []) 5 "asc" "zzz" (by decide)
  have hsort : sortedThreads
      (MemoryStore.mk [("t", ⟨"t", 0, "m"⟩)] [("t", [⟨"a", "1"⟩])] []) "asc" =
      [⟨"t", 0, "m"⟩] := by
    simp [sortedThreads]
  refine ⟨(h.1 "t" [⟨"a", "1"⟩] rfl).1 (by decide), h.2.1 ?_⟩
  rw [hsort]
  decide

/-! ### C4: append order, descending order, and `limit = 0` -/

theorem addThreadItem_ok (s : MemoryStore) (tid : String) (it : ThreadItem)
    (t : ThreadMetadata) (ht : dictGet s.threads tid = some t) :
    ∃ s', addThreadItem s tid it = .ok s' ∧ s'.threads = s.threads ∧
      s'.attachments = s.attachments ∧
      ∀ old, dictGet s.items tid = some old → dictGet s'.items tid = some (old ++ [it]) := by
  refine ⟨MemoryStore.mk s.threads
      (dictSet (dictSetdefault s.items tid []) tid
        (((dictGet (dictSetdefault s.items tid []) tid).getD []) ++ [_clone it]))
      s.attachments, ?_, rfl, rfl, ?_⟩
  · simp [addThreadItem, ht]
  · intro old hold
    simp [dictGet_dictSet_self, dictGet_setdefault_self, hold, _clone]

theorem addAll_ok (s : MemoryStore) (tid : String) (L : List ThreadItem) :
    ∀ (pre : List ThreadItem), (dictGet s.threads tid).isSome →
      dictGet s.items tid = some pre →
      ∃ s', addAll s tid L = .ok s' ∧ s'.threads = s.threads ∧
        s'.attachments = s.attachments ∧ dictGet s'.items tid = some (pre ++ L) := by
  induction L generalizing s with
  | nil =>
    intro pre hth hit
    exact ⟨s, rfl, rfl, rfl, by simpa using hit⟩
  | cons it rest ih =>
    intro pre hth hit
    obtain ⟨t, ht⟩ := Option.isSome_iff_exists.mp hth
    obtain ⟨s1, hs1, hthr1, hatt1, hit1⟩ := addThreadItem_ok s tid it t ht
    have hth1 : (dictGet s1.threads tid).isSome := by
      rw [hthr1, ht]
      rfl
    obtain ⟨s', hs', hthr', hatt', hit'⟩ := ih s1 (pre ++ [it]) hth1 (hit1 pre hit)
    refine ⟨s', ?_, by rw [hthr', hthr1], by rw [hatt', hatt1], by simpa using hit'⟩
    simp only [addAll, hs1]
    exact hs'

/-- C4: after appending `L` via `add_thread_item` to a saved thread with an
empty item sequence, `load_thread_items` with no cursor and `limit = 0` (falsy:
no limit) returns exactly `L` in append order with `has_more = false`, and
`order = "desc"` returns the reverse. -/
theorem c4_append_order_limit_zero (s : MemoryStore) (tid : String) (L : List ThreadItem)
    (hth : (dictGet s.threads tid).isSome) (hit : dictGet s.items tid = some []) :
    ∃ s', addAll s tid L = .ok s' ∧
      loadThreadItems s' tid none 0 "asc" = .ok ⟨L, false, none⟩ ∧
      loadThreadItems s' tid none 0 "desc" = .ok ⟨L.reverse, false, none⟩ := by
  obtain ⟨s', hs', _, _, hits⟩ := addAll_ok s tid L [] hth hit
  simp only [List.nil_append] at hits
  refine ⟨s', hs', ?_, ?_⟩
  · simp [loadThreadItems, hits, paginateCore, finishPage, map_clone]
  · simp [loadThreadItems, hits, paginateCore, finishPage, map_clone]

/-- Witness for C4: two items appended to a fresh thread come back in append
order ascending and reversed descending. -/
theorem c4_witness :
    ∃ s', addAll (MemoryStore.mk [("t", ⟨"t", 0, "m"⟩)] [("t", [])] []) "t"
        [⟨"a", "1"⟩, ⟨"b", "2"⟩] = .ok s' ∧
      loadThreadItems s' "t" none 0 "asc" =
        .ok ⟨[⟨"a", "1"⟩, ⟨"b", "2"⟩], false, none⟩ ∧
      loadThreadItems s' "t" none 0 "desc" =
        .ok ⟨[⟨"a", "1"⟩, ⟨"b", "2"⟩].reverse, false, none⟩ :=
  c4_append_order_limit_zero (MemoryStore.mk [("t", ⟨"t", 0, "m"⟩)] [("t", [])] [])
    "t" [⟨"a", "1"⟩, ⟨"b", "2"⟩] (by decide) rfl

/-! ### C1: `delete_thread` -/

/-- C1 counterexample: on a store holding the thread record `"t"` but no item
sequence for it, `delete_thread("t")` raises NotFound *and* has removed the
thread record, so the claim's "when it fails the store state is unchanged" is
false for that store state. -/
theorem c1_counterexample :
    ((deleteThread (MemoryStore.mk [("t", ⟨"t", 0, "m"⟩)] [] []) "t").2).isSome = true ∧
    (deleteThread (MemoryStore.mk [("t", ⟨"t", 0, "m"⟩)] [] []) "t").1 ≠
      MemoryStore.mk [("t", ⟨"t", 0, "m"⟩)] [] [] := by
  constructor
  · rfl
  · decide

/-- C1 (amended): on any store whose thread map and item map agree at
`thread_id` — which C10 shows covers every state reachable through the public
interface — `delete_thread` fails with NotFound exactly when the thread is
absent, leaves the store unchanged when it fails, and removes exactly the
thread record and its item sequence (and nothing else) when it succeeds. -/
theorem c1_delete_thread_atomic (s : MemoryStore) (tid : String)
    (hwfT : dictWF s.threads) (hwfI : dictWF s.items)
    (hagree : (dictGet s.threads tid).isSome ↔ (dictGet s.items tid).isSome) :
    ((deleteThread s tid).2 = some ("Thread " ++ tid ++ " not found") ↔
      dictGet s.threads tid = none)
    ∧ ((deleteThread s tid).2 ≠ none → (deleteThread s tid).1 = s)
    ∧ ((deleteThread s tid).2 = none →
        dictGet (deleteThread s tid).1.threads tid = none ∧
        dictGet (deleteThread s tid).1.items tid = none ∧
        (∀ k, k ≠ tid → dictGet (deleteThread s tid).1.threads k = dictGet s.threads k) ∧
        (∀ k, k ≠ tid → dictGet (deleteThread s tid).1.items k = dictGet s.items k) ∧
        (deleteThread s tid).1.attachments = s.attachments) := by
  have hT := dictPop_fst s.threads tid
  have hI := dictPop_fst s.items tid
  cases hg : dictGet s.threads tid with
  | none =>
    have hgi : dictGet s.items tid = none := by
      cases hgi : dictGet s.items tid with
      | none => rfl
      | some col =>
        rw [hg, hgi] at hagree
        simpa using hagree.mpr rfl
    have hpT : dictPop s.threads tid = (none, s.threads) := by
      have h1 := dictPop_none s.threads tid hg
      have h2 := hT
      rw [hg] at h2
      exact Prod.ext h2 h1
    have hpI : dictPop s.items tid = (none, s.items) := by
      have h1 := dictPop_none s.items tid hgi
      have h2 := hI
      rw [hgi] at h2
      exact Prod.ext h2 h1
    refine ⟨?_, ?_, ?_⟩
    · simp [deleteThread, hpT, hpI]
    · intro _
      simp [deleteThread, hpT, hpI]
    · intro habs
      simp [deleteThread, hpT, hpI] at habs
  | some t =>
    have hgi : ∃ col, dictGet s.items tid = some col := by
      cases hgi : dictGet s.items tid with
      | none =>
        rw [hg, hgi] at hagree
        simpa using hagree.mp rfl
      | some col => exact ⟨col, rfl⟩
    obtain ⟨col, hgi⟩ := hgi
    have hcond : ((dictPop s.threads tid).1 = none ∨ (dictPop s.items tid).1 = none) = False := by
      rw [hT, hI, hg, hgi]
      simp
    refine ⟨?_, ?_, ?_⟩
    · simp [deleteThread, hcond, hg]
    · intro hne
      exfalso
      apply hne
      simp [deleteThread, hcond]
    · intro _
      refine ⟨dictGet_pop_self s.threads tid hwfT, dictGet_pop_self s.items tid hwfI,
        fun k hk => dictGet_pop_ne s.threads hk, fun k hk => dictGet_pop_ne s.items hk, rfl⟩

/-- Witness for C1 at a concrete consistent store: deleting an absent thread
fails and leaves the store unchanged. -/
theorem c1_witness :
    ((deleteThread (MemoryStore.mk [] [] []) "t").2 =
        some ("Thread " ++ "t" ++ " not found") ↔
      dictGet (MemoryStore.mk [] [] []).threads "t" = none) ∧
    ((deleteThread (MemoryStore.mk [] [] []) "t").2 ≠ none →
      (deleteThread (MemoryStore.mk [] [] []) "t").1 = MemoryStore.mk [] [] []) := by
  have h := c1_delete_thread_atomic (MemoryStore.mk [] [] []) "t"
    (by simp [dictWF]) (by simp [dictWF]) (by rfl)
  exact ⟨h.1, h.2.1⟩

/-! ### C10: reachable states keep thread and item key sets in agreement -/

theorem storeInv_empty : StoreInv emptyStore := by
  refine ⟨by simp [dictWF, emptyStore], by simp [dictWF, emptyStore], ?_⟩
  intro k
  rfl

theorem storeInv_step (s : MemoryStore) (op : Op) (h : StoreInv s) : StoreInv (stepOp s op) := by
  obtain ⟨hT, hI, hA⟩ := h
  cases op with
  | opLoadThread tid => exact ⟨hT, hI, hA⟩
  | opSaveThread t =>
    refine ⟨dictWF_dictSet _ _ _ hT, dictWF_setdefault _ _ _ hI, ?_⟩
    intro k
    by_cases hk : k = t.id
    · subst hk
      simp [stepOp, saveThread, dictGet_dictSet_self, dictGet_setdefault_self]
    · have h1 : dictGet (stepOp s (Op.opSaveThread t)).threads k = dictGet s.threads k :=
        dictGet_dictSet_ne s.threads (_clone t) hk
      have h2 : dictGet (stepOp s (Op.opSaveThread t)).items k = dictGet s.items k :=
        dictGet_setdefault_ne s.items [] hk
      rw [h1, h2]
      exact hA k
  | opLoadThreadItems tid after limit order => exact ⟨hT, hI, hA⟩
  | opSaveAttachment a => exact ⟨hT, hI, hA⟩
  | opLoadAttachment aid => exact ⟨hT, hI, hA⟩
  | opDeleteAttachment aid =>
    cases hg : dictGet s.attachments aid with
    | none =>
      simp only [stepOp, deleteAttachment, hg]
      exact ⟨hT, hI, hA⟩
    | some a =>
      simp only [stepOp, deleteAttachment, hg]
      exact ⟨hT, hI, hA⟩
  | opLoadThreads limit after order => exact ⟨hT, hI, hA⟩
  | opAddThreadItem tid it =>
    cases hg : dictGet s.threads tid with
    | none =>
      simp only [stepOp, addThreadItem, hg]
      exact ⟨hT, hI, hA⟩
    | some t =>
      simp only [stepOp, addThreadItem, hg]
      refine ⟨hT, dictWF_dictSet _ _ _ (dictWF_setdefault _ _ _ hI), ?_⟩
      intro k
      by_cases hk : k = tid
      · subst hk
        simp [dictGet_dictSet_self, hg]
      · rw [dictGet_dictSet_ne _ _ hk, dictGet_setdefault_ne _ _ hk]
        exact hA k
  | opSaveItem tid it =>
    cases hg : dictGet s.items tid with
    | none =>
      simp only [stepOp, saveItem, hg]
      exact ⟨hT, hI, hA⟩
    | some col =>
      cases hr : replaceFirst col it with
      | none =>
        simp only [stepOp, saveItem, hg, hr]
        exact ⟨hT, hI, hA⟩
      | some col' =>
        simp only [stepOp, saveItem, hg, hr]
        refine ⟨hT, dictWF_dictSet _ _ _ hI, ?_⟩
        intro k
        by_cases hk : k = tid
        · subst hk
          rw [dictGet_dictSet_self]
          have := hA k
          rw [hg] at this
          simpa using this
        · rw [dictGet_dictSet_ne _ _ hk]
          exact hA k
  | opLoadItem tid iid => exact ⟨hT, hI, hA⟩
  | opDeleteThread tid =>
    refine ⟨dictWF_pop _ _ hT, dictWF_pop _ _ hI, ?_⟩
    intro k
    by_cases hk : k = tid
    · subst hk
      show (dictGet ((dictPop s.threads k).2) k).isSome ↔
        (dictGet ((dictPop s.items k).2) k).isSome
      rw [dictGet_pop_self s.threads k hT, dictGet_pop_self s.items k hI]
      exact Iff.rfl
    · show (dictGet ((dictPop s.threads tid).2) k).isSome ↔
        (dictGet ((dictPop s.items tid).2) k).isSome
      rw [dictGet_pop_ne s.threads hk, dictGet_pop_ne s.items hk]
      exact hA k
  | opDeleteThreadItem tid iid =>
    cases hg : dictGet s.items tid with
    | none =>
      simp only [stepOp, deleteThreadItem, hg]
      exact ⟨hT, hI, hA⟩
    | some col =>
      cases hr : removeFirst col iid with
      | none =>
        simp only [stepOp, deleteThreadItem, hg, hr]
        exact ⟨hT, hI, hA⟩
      | some col' =>
        simp only [stepOp, deleteThreadItem, hg, hr]
        refine ⟨hT, dictWF_dictSet _ _ _ hI, ?_⟩
        intro k
        by_cases hk : k = tid
        · subst hk
          rw [dictGet_dictSet_self]
          have := hA k
          rw [hg] at this
          simpa using this
        · rw [dictGet_dictSet_ne _ _ hk]
          exact hA k

theorem storeInv_foldl (ops : List Op) :
    ∀ s, StoreInv s → StoreInv (ops.foldl stepOp s) := by
  induction ops with
  | nil =>
    intro s h
    exact h
  | cons op rest ih =>
    intro s h
    exact ih (stepOp s op) (storeInv_step s op h)

/-- C10: starting from the empty store, every sequence of public `Store`
operations keeps the key set of the thread map equal to the key set of the
per-thread item map, so the existence check of `load_thread_items` (against
the item map) agrees with the thread map, and a state in which exactly one of
the two is present for some id is unreachable. -/
theorem c10_thread_item_keysets_agree (ops : List Op) (k : String) :
    (dictGet (runOps ops).threads k).isSome ↔ (dictGet (runOps ops).items k).isSome :=
  (storeInv_foldl ops emptyStore storeInv_empty).2.2 k

/-! ### C2: pagination round-trip -/

theorem finishPage_last_page {α : Type} (getId : α → String) (done rest : List α)
    (limit : Nat) (hl : 0 < limit) (hge : rest.length ≤ limit) :
    finishPage getId (done ++ rest) done.length limit = ⟨rest, false, none⟩ := by
  have hdrop : (done ++ rest).drop done.length = rest := List.drop_left done rest
  have htake : rest.take limit = rest := List.take_of_length_le hge
  have hlim : limit ≠ 0 := by omega
  simp [finishPage, map_clone, hdrop, htake, hlim]

theorem finishPage_mid_page {α : Type} (getId : α → String) (done rest : List α)
    (limit : Nat) (hl : 0 < limit) (hlt : limit < rest.length) :
    ∃ y, (rest.take limit).getLast? = some y ∧
      finishPage getId (done ++ rest) done.length limit =
        ⟨rest.take limit, true, some (getId y)⟩ := by
  have hdrop : (done ++ rest).drop done.length = rest := List.drop_left done rest
  have hlim : limit ≠ 0 := by omega
  have hslen : (rest.take limit).length = limit := by
    rw [List.length_take]
    omega
  have hne : rest.take limit ≠ [] := by
    intro e
    rw [e] at hslen
    simp at hslen
    omega
  obtain ⟨y, hy⟩ : ∃ y, (rest.take limit).getLast? = some y := by
    cases hgl : (rest.take limit).getLast? with
    | none => exact absurd (List.getLast?_eq_none_iff.mp hgl) hne
    | some z => exact ⟨z, rfl⟩
  refine ⟨y, hy, ?_⟩
  simp [finishPage, map_clone, hdrop, hlim, hy]
  omega

theorem loadThreadItems_at_cursor (s : MemoryStore) (tid : String) (its : List ThreadItem)
    (order : String) (limit : Nat) (hit : dictGet s.items tid = some its)
    (done rest : List ThreadItem) (c : Option String)
    (horder : (if order = "asc" then its else its.reverse) = done ++ rest)
    (hnodup : ((done ++ rest).map ThreadItem.id).Nodup)
    (hne : "" ∉ (done ++ rest).map ThreadItem.id)
    (hcur : (done = [] ∧ c = none) ∨ ∃ dpre x, done = dpre ++ [x] ∧ c = some x.id) :
    loadThreadItems s tid c limit order =
      .ok (finishPage ThreadItem.id (done ++ rest) done.length limit) := by
  rcases hcur with ⟨hd, hc⟩ | ⟨dpre, x, hd, hc⟩
  · subst hd
    subst hc
    simp [loadThreadItems, hit, horder, paginateCore]
  · subst hd
    subst hc
    have hxid : x.id ≠ "" := by
      intro e
      apply hne
      rw [← e]
      exact List.mem_map_of_mem ThreadItem.id (by simp)
    have hpre : x.id ∉ dpre.map ThreadItem.id := by
      have hmap : ((dpre ++ [x]) ++ rest).map ThreadItem.id
          = dpre.map ThreadItem.id ++ (x.id :: rest.map ThreadItem.id) := by
        simp
      rw [hmap] at hnodup
      have hdisj := (List.nodup_append.mp hnodup).2.2
      intro hmem
      exact hdisj hmem (by simp)
    have hrw : (dpre ++ [x]) ++ rest = dpre ++ x :: rest := by simp
    simp only [loadThreadItems, hit, horder, hrw]
    rw [paginateCore_found ThreadItem.id _ dpre x rest x.id limit hxid hpre rfl]
    have hlen : (dpre ++ [x]).length = dpre.length + 1 := by simp
    rw [hlen]

theorem paginateItems_roundtrip_aux (s : MemoryStore) (tid : String) (its : List ThreadItem)
    (order : String) (limit : Nat) (hit : dictGet s.items tid = some its) (hl : 0 < limit) :
    ∀ fuel done rest c,
      (if order = "asc" then its else its.reverse) = done ++ rest →
      ((done ++ rest).map ThreadItem.id).Nodup →
      "" ∉ (done ++ rest).map ThreadItem.id →
      ((done = [] ∧ c = none) ∨ ∃ dpre x, done = dpre ++ [x] ∧ c = some x.id) →
      rest.length + 1 ≤ fuel →
      paginateItems s tid limit order fuel c = some rest := by
  intro fuel
  induction fuel with
  | zero =>
    intro done rest c _ _ _ _ hfuel
    omega
  | succ n ih =>
    intro done rest c horder hnodup hne hcur hfuel
    have hcall := loadThreadItems_at_cursor s tid its order limit hit done rest c
      horder hnodup hne hcur
    by_cases hcase : rest.length ≤ limit
    · simp only [paginateItems, hcall,
        finishPage_last_page ThreadItem.id done rest limit hl hcase]
      simp
    · push_neg at hcase
      obtain ⟨y, hy, hpage⟩ := finishPage_mid_page ThreadItem.id done rest limit hl hcase
      have hsplit : rest.take limit ++ rest.drop limit = rest :=
        List.take_append_drop limit rest
      have hdone' : done ++ rest = (done ++ rest.take limit) ++ rest.drop limit := by
        rw [List.append_assoc, hsplit]
      have hne2 : rest.take limit ≠ [] := by
        intro e
        rw [e] at hy
        simp at hy
      have htako : rest.take limit = (rest.take limit).dropLast ++ [y] := by
        have hgl := List.getLast?_eq_getLast (rest.take limit) hne2
        rw [hy] at hgl
        have hyy : y = (rest.take limit).getLast hne2 := Option.some.inj hgl
        rw [hyy]
        exact (List.dropLast_append_getLast hne2).symm
      have hnodup' : (((done ++ rest.take limit) ++ rest.drop limit).map ThreadItem.id).Nodup := by
        rw [← hdone']
        exact hnodup
      have hne' : "" ∉ ((done ++ rest.take limit) ++ rest.drop limit).map ThreadItem.id := by
        rw [← hdone']
        exact hne
      have hcur' : (done ++ rest.take limit = [] ∧ some y.id = none) ∨
          ∃ dpre x, done ++ rest.take limit = dpre ++ [x] ∧ some y.id = some x.id := by
        refine Or.inr ⟨done ++ (rest.take limit).dropLast, y, ?_, rfl⟩
        rw [List.append_assoc, ← htako]
      have hfuel' : (rest.drop limit).length + 1 ≤ n := by
        rw [List.length_drop]
        omega
      have ihres := ih (done ++ rest.take limit) (rest.drop limit) (some y.id)
        (by rw [horder, hdone']) hnodup' hne' hcur' hfuel'
      simp only [paginateItems, hcall, hpage]
      rw [ihres]
      simp [hsplit]

/-- C2 counterexample: with duplicate item ids the round trip breaks.  The
thread items have ids `a, x, a, y`; with `limit = 1` ascending, the iteration
enters the cursor cycle `a → x → a → …` (each of the two pages shown claims
`has_more = true`), so with fuel 100 — far more than the 5 calls the claim
needs — the accumulation never terminates via `has_more = false`, never
reaches the item `y`, and repeats items. -/
theorem c2_counterexample :
    paginateItems
        (MemoryStore.mk [("t", ⟨"t", 0, "m"⟩)]
          [("t", [⟨"a", "1"⟩, ⟨"x", "2"⟩, ⟨"a", "3"⟩, ⟨"y", "4"⟩])] [])
        "t" 1 "asc" 100 none = none ∧
    loadThreadItems
        (MemoryStore.mk [("t", ⟨"t", 0, "m"⟩)]
          [("t", [⟨"a", "1"⟩, ⟨"x", "2"⟩, ⟨"a", "3"⟩, ⟨"y", "4"⟩])] [])
        "t" (some "a") 1 "asc" = .ok ⟨[⟨"x", "2"⟩], true, some "x"⟩ ∧
    loadThreadItems
        (MemoryStore.mk [("t", ⟨"t", 0, "m"⟩)]
          [("t", [⟨"a", "1"⟩, ⟨"x", "2"⟩, ⟨"a", "3"⟩, ⟨"y", "4"⟩])] [])
        "t" (some "x") 1 "asc" = .ok ⟨[⟨"a", "3"⟩], true, some "a"⟩ := by
  refine ⟨?_, rfl, rfl⟩
  rfl

/-- C2 (amended): when the ordered sequence's item ids are pairwise distinct
and non-empty, iterating `load_thread_items` from `after = None` with any
positive `limit`, feeding each page's `next_after` back in, terminates with
`has_more = false` and the concatenated pages are exactly the full ordered
sequence (no duplicates, no omissions). -/
theorem c2_pagination_roundtrip_distinct_ids (s : MemoryStore) (tid : String)
    (its : List ThreadItem) (limit : Nat) (order : String) (fuel : Nat)
    (hit : dictGet s.items tid = some its)
    (hnodup : ((if order = "asc" then its else its.reverse).map ThreadItem.id).Nodup)
    (hne : "" ∉ (if order = "asc" then its else its.reverse).map ThreadItem.id)
    (hl : 0 < limit)
    (hfuel : (if order = "asc" then its else its.reverse).length + 1 ≤ fuel) :
    paginateItems s tid limit order fuel none =
      some (if order = "asc" then its else its.reverse) := by
  have h := paginateItems_roundtrip_aux s tid its order limit hit hl fuel
    [] (if order = "asc" then its else its.reverse) none
    (by simp) (by simpa using hnodup) (by simpa using hne)
    (Or.inl ⟨rfl, rfl⟩) (by simpa using hfuel)
  exact h

/-- Witness for C2: three distinct-id items, `limit = 2`, ascending, fuel 4 —
the concatenated pages are the whole sequence. -/
theorem c2_witness :
    paginateItems
        (MemoryStore.mk [("t", ⟨"t", 0, "m"⟩)]
          [("t", [⟨"a", "1"⟩, ⟨"b", "2"⟩, ⟨"c", "3"⟩])] [])
        "t" 2 "asc" 4 none =
      some (if "asc" = "asc"
        then [(⟨"a", "1"⟩ : ThreadItem), ⟨"b", "2"⟩, ⟨"c", "3"⟩]
        else [(⟨"a", "1"⟩ : ThreadItem), ⟨"b", "2"⟩, ⟨"c", "3"⟩].reverse) :=
  c2_pagination_roundtrip_distinct_ids
    (MemoryStore.mk [("t", ⟨"t", 0, "m"⟩)]
      [("t", [⟨"a", "1"⟩, ⟨"b", "2"⟩, ⟨"c", "3"⟩])] [])
    "t" [⟨"a", "1"⟩, ⟨"b", "2"⟩, ⟨"c", "3"⟩] 2 "asc" 4
    rfl (by decide) (by decide) (by decide) (by decide)

/-! ### C3: deep copy on the way in and on the way out -/

/-- C3: for a caller object `T` held at address `p`, `save_thread` stores a
fresh clone (at the fresh address `s.next`), and a subsequent `load_thread`
returns a value equal to `T` at an address `q` aliased neither to the stored
cell nor to the caller's `p`; mutating the returned copy, or mutating the
caller's `T` after saving, does not change what a later `load_thread`
returns. -/
theorem c3_load_returns_unaliased_copy (s : HeapStore) (p : Nat) (T : ThreadMetadata)
    (hwf : wfH s) (hp : dictGet s.heap p = some T) :
    ∃ s1, saveThreadH s p = some s1 ∧
      ∃ q s2, loadThreadH s1 T.id = .ok (q, s2) ∧
        dictGet s2.heap q = some T ∧
        q ≠ p ∧
        dictGet s1.threadRefs T.id = some s.next ∧
        q ≠ s.next ∧
        (∀ w, ∃ q2 s3, loadThreadH (mutateH s2 q w) T.id = .ok (q2, s3) ∧
          dictGet s3.heap q2 = some T) ∧
        (∀ w, ∃ q2 s3, loadThreadH (mutateH s1 p w) T.id = .ok (q2, s3) ∧
          dictGet s3.heap q2 = some T) := by
  have hplt : p < s.next := hwf p T (mem_of_dictGet s.heap p T hp)
  refine ⟨HeapStore.mk (dictSet s.heap s.next T) (s.next + 1)
      (dictSet s.threadRefs T.id s.next), ?_, ?_⟩
  · simp [saveThreadH, hp, allocH]
  · have href : dictGet (dictSet s.threadRefs T.id s.next) T.id = some s.next :=
      dictGet_dictSet_self s.threadRefs T.id s.next
    have hheap1 : dictGet (dictSet s.heap s.next T) s.next = some T :=
      dictGet_dictSet_self s.heap s.next T
    refine ⟨s.next + 1,
      HeapStore.mk (dictSet (dictSet s.heap s.next T) (s.next + 1) T) (s.next + 2)
        (dictSet s.threadRefs T.id s.next), ?_, ?_, ?_, ?_, ?_, ?_, ?_⟩
    · simp [loadThreadH, href, hheap1, allocH]
    · exact dictGet_dictSet_self _ _ _
    · omega
    · exact href
    · omega
    · intro w
      refine ⟨s.next + 2,
        HeapStore.mk
          (dictSet (dictSet (dictSet (dictSet s.heap s.next T) (s.next + 1) T)
            (s.next + 1) w) (s.next + 2) T)
          (s.next + 3) (dictSet s.threadRefs T.id s.next), ?_, ?_⟩
      · have hh : dictGet (dictSet (dictSet (dictSet s.heap s.next T) (s.next + 1) T)
            (s.next + 1) w) s.next = some T := by
          rw [dictGet_dictSet_ne _ w (by omega : s.next ≠ s.next + 1),
            dictGet_dictSet_ne _ T (by omega : s.next ≠ s.next + 1)]
          exact hheap1
        simp [loadThreadH, mutateH, href, hh, allocH]
      · exact dictGet_dictSet_self _ _ _
    · intro w
      refine ⟨s.next + 1,
        HeapStore.mk
          (dictSet (dictSet (dictSet s.heap s.next T) p w) (s.next + 1) T)
          (s.next + 2) (dictSet s.threadRefs T.id s.next), ?_, ?_⟩
      · have hh : dictGet (dictSet (dictSet s.heap s.next T) p w) s.next = some T := by
          rw [dictGet_dictSet_ne _ w (by omega : s.next ≠ p)]
          exact hheap1
        simp [loadThreadH, mutateH, href, hh, allocH]
      · exact dictGet_dictSet_self _ _ _

/-- Witness for C3 at a one-object heap. -/
theorem c3_witness :
    ∃ s1, saveThreadH (HeapStore.mk [(0, ⟨"t", 0, "m"⟩)] 1 []) 0 = some s1 ∧
      ∃ q s2, loadThreadH s1 (ThreadMetadata.mk "t" 0 "m").id = .ok (q, s2) ∧
        dictGet s2.heap q = some (ThreadMetadata.mk "t" 0 "m") ∧
        q ≠ 0 ∧
        dictGet s1.threadRefs (ThreadMetadata.mk "t" 0 "m").id =
          some (HeapStore.mk [(0, ⟨"t", 0, "m"⟩)] 1 []).next ∧
        q ≠ (HeapStore.mk [(0, ⟨"t", 0, "m"⟩)] 1 []).next ∧
        (∀ w, ∃ q2 s3, loadThreadH (mutateH s2 q w) (ThreadMetadata.mk "t" 0 "m").id =
            .ok (q2, s3) ∧ dictGet s3.heap q2 = some (ThreadMetadata.mk "t" 0 "m")) ∧
        (∀ w, ∃ q2 s3, loadThreadH (mutateH s1 0 w) (ThreadMetadata.mk "t" 0 "m").id =
            .ok (q2, s3) ∧ dictGet s3.heap q2 = some (ThreadMetadata.mk "t" 0 "m")) :=
  c3_load_returns_unaliased_copy (HeapStore.mk [(0, ⟨"t", 0, "m"⟩)] 1 []) 0
    (ThreadMetadata.mk "t" 0 "m")
    (by
      intro a b hmem
      simp at hmem
      rcases hmem with ⟨rfl, rfl⟩
      decide)
    rfl

end MemoryStoreModel
